import Mathlib

/-!
Verification of the named-entity map builder (`build_map` in
`src/macros/src/named_entities.rs`).

The Rust function consumes the entries of an `entities.json` object — each
entry a key (the entity name, including its leading marker character) paired
with a record carrying a `codepoints : Vec<u32>` — and produces a
`HashMap<String, [u32; 2]>` that is closed under byte-level string prefixes.

Shallow embedding decisions, all traceable to the source:
  * Strings are `List Char` (Unicode scalar values, as in Rust's `String`).
    Rust's `k.len()` is a BYTE length and `k[..n]` is a BYTE slice that
    panics when `n` is not a character boundary; we model this with
    `utf8Len` / `byteSlice`, the latter returning `none` exactly where the
    Rust slice would panic.
  * The `HashMap` is an association list (`EMap`) with insert-overwrite
    (`mapInsert`), lookup (`mapLookup`) and `containsKey`.  Hash iteration
    order is unspecified in Rust; the closure pass only inserts the sentinel
    at absent keys, so the resulting map (and whether the pass panics) does
    not depend on the iteration order, and the association-list order is a
    faithful representative.
  * The input is the sequence of object entries, per the spec's input
    contract (an ordered sequence of records); codepoints are `Nat` (the
    builder performs no arithmetic on them, so `u32` overflow cannot occur).
  * Panics (`assert!`, `.expect`, string-slice panics) are modelled as
    `none`: a panic aborts the build and produces no map.
-/

/-- An input record: the JSON key (entity name including its leading marker
    character, e.g. `&amp;`) together with the `codepoints` field of the
    associated `CharRef` value. -/
abbrev EntityRecord : Type := List Char × List Nat

/-- The map under construction: `HashMap<String, [u32; 2]>` as an
    association list from names to codepoint pairs. -/
abbrev EMap : Type := List (List Char × (Nat × Nat))

/-- `map.get(k)`: the value stored at `k`, if any. -/
def mapLookup (m : EMap) (k : List Char) : Option (Nat × Nat) :=
  (m.find? (fun e => e.1 == k)).map Prod.snd

/-- `map.contains_key(&k)`. -/
def containsKey (m : EMap) (k : List Char) : Bool :=
  (mapLookup m k).isSome

/-- `map.insert(k, v)`: overwrites any existing entry for `k`. -/
def mapInsert (m : EMap) (k : List Char) (v : Nat × Nat) : EMap :=
  (k, v) :: m.filter (fun e => !(e.1 == k))

/-- Lines 49–53 of the source: `assert!((codepoints.len() >= 1) &&
    (codepoints.len() <= 2))` followed by writing the codepoints into
    `[0, 0]` by index.  One codepoint yields `(c0, 0)`; two yield
    `(c0, c1)`; any other count panics (`none`). -/
def normCodepoints (cps : List Nat) : Option (Nat × Nat) :=
  match cps with
  | [c0] => some (c0, 0)
  | [c0, c1] => some (c0, c1)
  | _ => none

/-- One iteration of the record loop (lines 44–58): normalize the
    codepoints, `assert!(k.chars().next() == Some('&'))`, then insert the
    name with the marker sliced off.  (`'&'` is one byte, so `k[1..]`
    drops exactly the first character.) -/
def insertRecord (m : EMap) (r : EntityRecord) : Option EMap :=
  match normCodepoints r.2 with
  | none => none
  | some p =>
    if r.1.head? = some '&' then some (mapInsert m (r.1.drop 1) p) else none

/-- The whole record loop, left to right over the input sequence. -/
def insertRecords (m : EMap) (rs : List EntityRecord) : Option EMap :=
  match rs with
  | [] => some m
  | r :: rest =>
    match insertRecord m r with
    | none => none
    | some m2 => insertRecords m2 rest

/-- Byte length of a string, as Rust's `str::len`. -/
def utf8Len (s : List Char) : Nat :=
  match s with
  | [] => 0
  | c :: rest => c.utf8Size + utf8Len rest

/-- Rust's `&k[..n]` on a `String`: take the first `n` BYTES.  Returns
    `none` (panic) when `n` overshoots the string or falls strictly inside
    a multi-byte character, i.e. is not a character boundary. -/
def byteSlice (s : List Char) (n : Nat) : Option (List Char) :=
  match s with
  | [] => if n = 0 then some [] else none
  | c :: rest =>
    if n = 0 then some []
    else if c.utf8Size ≤ n then (byteSlice rest (n - c.utf8Size)).map (fun q => c :: q)
    else none

/-- The index range of the closure loop, `for n in 1 .. k.len()`:
    the list `[1, 2, ..., len - 1]`. -/
def sliceIndices (len : Nat) : List Nat :=
  List.range' 1 (len - 1)

/-- Inner closure loop for one snapshot key `k` (lines 64–69): for each
    byte index `n`, slice off the first `n` bytes (panicking on a
    non-boundary) and insert the sentinel `(0, 0)` if that prefix is
    absent. -/
def closeKeyAux (k : List Char) (m : EMap) (ns : List Nat) : Option EMap :=
  match ns with
  | [] => some m
  | n :: rest =>
    match byteSlice k n with
    | none => none
    | some pfx =>
      closeKeyAux k (if containsKey m pfx then m else mapInsert m pfx (0, 0)) rest

/-- The closure pass for one snapshot key. -/
def closeKey (m : EMap) (k : List Char) : Option EMap :=
  closeKeyAux k m (sliceIndices (utf8Len k))

/-- The closure pass over the whole key snapshot (lines 62–70). -/
def closeKeys (m : EMap) (ks : List (List Char)) : Option EMap :=
  match ks with
  | [] => some m
  | k :: rest =>
    match closeKey m k with
    | none => none
    | some m2 => closeKeys m2 rest

/-- The map after the record loop, started from the empty map. -/
def phase1_map (l : List EntityRecord) : Option EMap :=
  insertRecords [] l

/-- The map right before the closure pass: line 61 unconditionally inserts
    the empty string with the sentinel value. -/
def phase2_map (l : List EntityRecord) : Option EMap :=
  match phase1_map l with
  | none => none
  | some m1 => some (mapInsert m1 [] (0, 0))

/-- `build_map`, lines 36–73 of the source: record loop, unconditional
    root insertion, snapshot of the keys, closure pass. -/
def build_map (l : List EntityRecord) : Option EMap :=
  match phase2_map l with
  | none => none
  | some m2 => closeKeys m2 (m2.map Prod.fst)

/-- The name of a record with its leading marker stripped (`k[1..]`). -/
def strip (r : EntityRecord) : List Char :=
  r.1.drop 1

/-- The last record of `l` whose full name is `'&' :: k` (the record whose
    value survives the last-write-wins insert loop). -/
def lastWith (l : List EntityRecord) (k : List Char) : Option EntityRecord :=
  match l with
  | [] => none
  | r :: rest =>
    match lastWith rest k with
    | some r2 => some r2
    | none => if r.1 = '&' :: k then some r else none

/-- `p` is a non-empty proper left-slice of `x` (in characters). -/
def properPrefixOf (p x : List Char) : Prop :=
  1 ≤ p.length ∧ p.length < x.length ∧ x.take p.length = p

instance (p x : List Char) : Decidable (properPrefixOf p x) := by
  unfold properPrefixOf; infer_instance

/-- A record that passes the loop's two assertions: a leading marker and a
    codepoint count in `[1, 2]`. -/
def wfRecord (r : EntityRecord) : Prop :=
  r.1.head? = some '&' ∧ 1 ≤ r.2.length ∧ r.2.length ≤ 2

instance (r : EntityRecord) : Decidable (wfRecord r) := by
  unfold wfRecord; infer_instance

/-- Every byte index the closure loop visits for key `k` is a character
    boundary, so slicing `k` never panics. -/
def sliceOK (k : List Char) : Prop :=
  ∀ n ∈ sliceIndices (utf8Len k), (byteSlice k n).isSome = true

instance (k : List Char) : Decidable (sliceOK k) := by
  unfold sliceOK; infer_instance

/-! ### Association-list map lemmas -/

theorem find_filter_out (m : EMap) (k k' : List Char) (h : k' ≠ k) :
    (m.filter (fun e => !(e.1 == k))).find? (fun e => e.1 == k') =
      m.find? (fun e => e.1 == k') := by
  induction m with
  | nil => rfl
  | cons e rest ih =>
    by_cases hek : e.1 = k
    · have h1 : (e.1 == k) = true := by simp [hek]
      have h2 : (e.1 == k') = false := by simp [hek]; exact fun hk => (h hk.symm).elim
      simp [List.filter, h1, List.find?, h2, ih]
    · have h1 : (e.1 == k) = false := by simp [hek]
      by_cases hek' : e.1 = k'
      · have h2 : (e.1 == k') = true := by simp [hek']
        simp [List.filter, h1, List.find?, h2]
      · have h2 : (e.1 == k') = false := by simp [hek']
        simp [List.filter, h1, List.find?, h2, ih]

theorem mapLookup_mapInsert (m : EMap) (k : List Char) (v : Nat × Nat) (k' : List Char) :
    mapLookup (mapInsert m k v) k' = if k' = k then some v else mapLookup m k' := by
  by_cases h : k' = k
  · subst h
    simp [mapLookup, mapInsert, List.find?]
  · have h2 : (k == k') = false := by
      simp; exact fun hk => (h hk.symm).elim
    simp [mapLookup, mapInsert, List.find?, h2, h, find_filter_out m k k' h]

theorem containsKey_mapInsert (m : EMap) (k : List Char) (v : Nat × Nat) (k' : List Char) :
    containsKey (mapInsert m k v) k' = (decide (k' = k) || containsKey m k') := by
  by_cases h : k' = k <;> simp [containsKey, mapLookup_mapInsert, h]

theorem containsKey_iff_mem_keys (m : EMap) (k : List Char) :
    containsKey m k = true ↔ k ∈ m.map Prod.fst := by
  induction m with
  | nil => simp [containsKey, mapLookup]
  | cons e rest ih =>
    by_cases h : e.1 = k
    · have h2 : (e.1 == k) = true := by simp [h]
      simp [containsKey, mapLookup, List.find?, h2, h]
    · have h2 : (e.1 == k) = false := by simp [h]
      have h3 : ¬(k = e.1) := fun hh => h hh.symm
      simp [containsKey, mapLookup, List.find?, h2, h3]

theorem containsKey_eq_isSome (m : EMap) (k : List Char) :
    containsKey m k = (mapLookup m k).isSome := rfl

/-! ### Record-loop (phase 1) lemmas -/

theorem normCodepoints_isSome_iff (cps : List Nat) :
    (normCodepoints cps).isSome = true ↔ 1 ≤ cps.length ∧ cps.length ≤ 2 := by
  match cps with
  | [] => simp [normCodepoints]
  | [c0] => simp [normCodepoints]
  | [c0, c1] => simp [normCodepoints]
  | c0 :: c1 :: c2 :: rest => simp [normCodepoints]

theorem head_amp_cons (xs : List Char) (h : xs.head? = some '&') :
    xs = '&' :: xs.drop 1 := by
  cases xs with
  | nil => cases h
  | cons c rest => simp at h; simp [h]

theorem insertRecord_some (m : EMap) (r : EntityRecord) (m' : EMap)
    (h : insertRecord m r = some m') :
    ∃ p, normCodepoints r.2 = some p ∧ r.1.head? = some '&' ∧
      m' = mapInsert m (strip r) p := by
  unfold insertRecord at h
  match hn : normCodepoints r.2 with
  | none => rw [hn] at h; cases h
  | some p =>
    rw [hn] at h
    by_cases hc : r.1.head? = some '&'
    · simp [hc] at h
      exact ⟨p, rfl, hc, by simp [strip, ← h]⟩
    · simp [hc] at h

theorem insertRecord_wf (m : EMap) (r : EntityRecord) (m' : EMap)
    (h : insertRecord m r = some m') : wfRecord r := by
  rcases insertRecord_some m r m' h with ⟨p, hp, hname, _⟩
  exact ⟨hname, (normCodepoints_isSome_iff r.2).mp (by rw [hp]; rfl)⟩

theorem insertRecords_wf (m0 : EMap) (l : List EntityRecord) (m' : EMap)
    (h : insertRecords m0 l = some m') : ∀ r ∈ l, wfRecord r := by
  induction l generalizing m0 with
  | nil => intro r hr; cases hr
  | cons a rest ih =>
    intro r hr
    unfold insertRecords at h
    match ha : insertRecord m0 a with
    | none => rw [ha] at h; cases h
    | some m1 =>
      rw [ha] at h
      rcases List.mem_cons.mp hr with h1 | h1
      · exact h1 ▸ insertRecord_wf m0 a m1 ha
      · exact ih m1 h r h1

theorem insertRecords_total (m0 : EMap) (l : List EntityRecord)
    (hwf : ∀ r ∈ l, wfRecord r) : (insertRecords m0 l).isSome = true := by
  induction l generalizing m0 with
  | nil => rfl
  | cons a rest ih =>
    rcases hwf a (List.mem_cons_self a rest) with ⟨hmark, hlen⟩
    have hnorm : (normCodepoints a.2).isSome = true :=
      (normCodepoints_isSome_iff a.2).mpr hlen
    match hn : normCodepoints a.2 with
    | none => rw [hn] at hnorm; cases hnorm
    | some p =>
      have : insertRecord m0 a = some (mapInsert m0 (a.1.drop 1) p) := by
        unfold insertRecord
        rw [hn]
        simp [hmark]
      unfold insertRecords
      rw [this]
      exact ih (mapInsert m0 (a.1.drop 1) p) (fun r hr => hwf r (List.mem_cons_of_mem a hr))

theorem insertRecords_lookup (m0 : EMap) (l : List EntityRecord) (m' : EMap)
    (h : insertRecords m0 l = some m') (k : List Char) :
    mapLookup m' k =
      match lastWith l k with
      | some r => normCodepoints r.2
      | none => mapLookup m0 k := by
  induction l generalizing m0 with
  | nil =>
    unfold insertRecords at h
    simp at h
    subst h
    rfl
  | cons a rest ih =>
    unfold insertRecords at h
    match ha : insertRecord m0 a with
    | none => rw [ha] at h; cases h
    | some m1 =>
      rw [ha] at h
      rcases insertRecord_some m0 a m1 ha with ⟨p, hp, hname, hm1⟩
      have hcons : a.1 = '&' :: strip a := head_amp_cons a.1 hname
      have step := ih m1 h
      unfold lastWith
      match hlast : lastWith rest k with
      | some r2 => rw [hlast] at step; exact step
      | none =>
        rw [hlast] at step
        rw [step, hm1, mapLookup_mapInsert]
        by_cases hk : strip a = k
        · have h5 : a.1 = '&' :: k := by rw [hcons, hk]
          simp [hk, h5, hp]
        · have h5 : ¬(a.1 = '&' :: k) := by
            rw [hcons]
            intro hh
            exact hk (by injection hh)
          simp [Ne.symm hk, h5]

/-! ### Byte-length and byte-slice lemmas -/

theorem utf8Len_pos (s : List Char) (h : s ≠ []) : 1 ≤ utf8Len s := by
  match s with
  | [] => exact absurd rfl h
  | c :: rest =>
    have := Char.utf8Size_pos c
    unfold utf8Len
    omega

theorem utf8Len_take_lt (s : List Char) (i : Nat) (h : i < s.length) :
    utf8Len (s.take i) < utf8Len s := by
  induction s generalizing i with
  | nil => simp at h
  | cons c rest ih =>
    match i with
    | 0 =>
      have h1 := utf8Len_pos (c :: rest) (by simp)
      simpa using h1
    | i + 1 =>
      have h2 := ih i (by simpa using h)
      simp only [List.take_succ_cons, utf8Len]
      omega

theorem byteSlice_take (s : List Char) (i : Nat) (h : i ≤ s.length) :
    byteSlice s (utf8Len (s.take i)) = some (s.take i) := by
  induction s generalizing i with
  | nil =>
    have : i = 0 := by simpa using h
    subst this
    rfl
  | cons c rest ih =>
    match i with
    | 0 => rfl
    | i + 1 =>
      have hsz := Char.utf8Size_pos c
      have hle : i ≤ rest.length := by simpa using h
      have hrec := ih i hle
      simp only [List.take_succ_cons, utf8Len]
      unfold byteSlice
      have hne : ¬(c.utf8Size + utf8Len (rest.take i) = 0) := by omega
      rw [if_neg hne, if_pos (by omega : c.utf8Size ≤ c.utf8Size + utf8Len (rest.take i))]
      have : c.utf8Size + utf8Len (rest.take i) - c.utf8Size = utf8Len (rest.take i) := by omega
      rw [this, hrec]
      rfl

theorem byteSlice_some (s : List Char) (n : Nat) (p : List Char)
    (h : byteSlice s n = some p) :
    p.length ≤ s.length ∧ s.take p.length = p ∧ utf8Len p = n := by
  induction s generalizing n p with
  | nil =>
    unfold byteSlice at h
    by_cases hn : n = 0
    · rw [if_pos hn] at h
      have : p = [] := by simpa using h.symm
      subst this
      simp [utf8Len, hn]
    · rw [if_neg hn] at h
      cases h
  | cons c rest ih =>
    unfold byteSlice at h
    by_cases hn : n = 0
    · rw [if_pos hn] at h
      have : p = [] := by simpa using h.symm
      subst this
      simp [utf8Len, hn]
    · rw [if_neg hn] at h
      by_cases hsz : c.utf8Size ≤ n
      · rw [if_pos hsz] at h
        match hq : byteSlice rest (n - c.utf8Size) with
        | none => rw [hq] at h; cases h
        | some q =>
          rw [hq] at h
          have hp : p = c :: q := by simpa using h.symm
          subst hp
          rcases ih (n - c.utf8Size) q hq with ⟨h1, h2, h3⟩
          refine ⟨by simpa using h1, by simp [h2], ?_⟩
          simp only [utf8Len]
          omega
      · rw [if_neg hsz] at h
        cases h

theorem utf8Len_ascii (s : List Char) (h : ∀ c ∈ s, c.utf8Size = 1) :
    utf8Len s = s.length := by
  induction s with
  | nil => rfl
  | cons c rest ih =>
    simp only [utf8Len, ih (fun x hx => h x (List.mem_cons_of_mem c hx)),
      h c (List.mem_cons_self c rest), List.length_cons]
    omega

theorem byteSlice_ascii (s : List Char) (n : Nat)
    (h1 : ∀ c ∈ s, c.utf8Size = 1) (h2 : n ≤ s.length) :
    byteSlice s n = some (s.take n) := by
  induction s generalizing n with
  | nil =>
    have : n = 0 := by simpa using h2
    subst this
    rfl
  | cons c rest ih =>
    match n with
    | 0 => rfl
    | n + 1 =>
      have hc : c.utf8Size = 1 := h1 c (List.mem_cons_self c rest)
      unfold byteSlice
      rw [if_neg (by omega : ¬(n + 1 = 0)), if_pos (by omega : c.utf8Size ≤ n + 1)]
      have : n + 1 - c.utf8Size = n := by omega
      rw [this, ih n (fun x hx => h1 x (List.mem_cons_of_mem c hx)) (by simpa using h2)]
      rfl

theorem mem_sliceIndices (n len : Nat) : n ∈ sliceIndices len ↔ 1 ≤ n ∧ n < len := by
  unfold sliceIndices
  rw [List.mem_range'_1]
  omega

theorem properPrefixOf_byteSlice (p x : List Char) (h : properPrefixOf p x) :
    byteSlice x (utf8Len p) = some p ∧ 1 ≤ utf8Len p ∧ utf8Len p < utf8Len x := by
  rcases h with ⟨h1, h2, h3⟩
  have hlen : p.length ≤ x.length := Nat.le_of_lt h2
  have hbs := byteSlice_take x p.length hlen
  rw [h3] at hbs
  refine ⟨hbs, utf8Len_pos p (by intro hp; rw [hp] at h1; simp at h1), ?_⟩
  have := utf8Len_take_lt x p.length h2
  rw [h3] at this
  exact this

theorem byteSlice_properPrefixOf (x : List Char) (n : Nat) (p : List Char)
    (h : byteSlice x n = some p) (h1 : 1 ≤ n) (h2 : n < utf8Len x) :
    properPrefixOf p x := by
  rcases byteSlice_some x n p h with ⟨hle, htake, hlen⟩
  have hp1 : 1 ≤ p.length := by
    match p with
    | [] => rw [← hlen] at h1; simp [utf8Len] at h1
    | q :: rest => simp
  have hp2 : p.length < x.length := by
    rcases Nat.lt_or_ge p.length x.length with hlt | hge
    · exact hlt
    · have hxp : p.length = x.length := Nat.le_antisymm hle hge
      rw [hxp, List.take_length] at htake
      have : utf8Len x = n := by rw [htake]; exact hlen
      omega
  exact ⟨hp1, hp2, htake⟩

/-! ### Closure-pass lemmas -/

theorem lookup_none_of_not_contains (m : EMap) (k : List Char)
    (h : containsKey m k = false) : mapLookup m k = none := by
  match hl : mapLookup m k with
  | none => rfl
  | some v =>
    unfold containsKey at h
    rw [hl] at h
    cases h

theorem closeKeyAux_preserve (k : List Char) (ns : List Nat) (m m' : EMap)
    (h : closeKeyAux k m ns = some m') (p : List Char) (hp : containsKey m p = true) :
    mapLookup m' p = mapLookup m p := by
  induction ns generalizing m with
  | nil =>
    unfold closeKeyAux at h
    simp at h
    subst h
    rfl
  | cons n rest ih =>
    unfold closeKeyAux at h
    match hq : byteSlice k n with
    | none => rw [hq] at h; cases h
    | some q =>
      rw [hq] at h
      have h2 : closeKeyAux k (if containsKey m q then m else mapInsert m q (0, 0)) rest
          = some m' := h
      by_cases hcq : containsKey m q = true
      · rw [if_pos hcq] at h2
        exact ih m h2 hp
      · rw [if_neg hcq] at h2
        have hqp : ¬(p = q) := by
          intro hh
          rw [hh] at hp
          exact hcq hp
        have hc2 : containsKey (mapInsert m q (0, 0)) p = true := by
          rw [containsKey_mapInsert]
          simp [hp]
        have hrec := ih (mapInsert m q (0, 0)) h2 hc2
        rw [hrec, mapLookup_mapInsert, if_neg hqp]

theorem closeKeyAux_new (k : List Char) (ns : List Nat) (m m' : EMap)
    (h : closeKeyAux k m ns = some m') (p : List Char) (hp : containsKey m p = false) :
    mapLookup m' p = if (∃ n ∈ ns, byteSlice k n = some p) then some (0, 0) else none := by
  induction ns generalizing m with
  | nil =>
    unfold closeKeyAux at h
    simp at h
    subst h
    rw [if_neg (by simp)]
    exact lookup_none_of_not_contains m p hp
  | cons n rest ih =>
    unfold closeKeyAux at h
    match hq : byteSlice k n with
    | none => rw [hq] at h; cases h
    | some q =>
      rw [hq] at h
      have h2 : closeKeyAux k (if containsKey m q then m else mapInsert m q (0, 0)) rest
          = some m' := h
      by_cases hpq : q = p
      · subst hpq
        rw [if_neg (by rw [hp]; exact Bool.false_ne_true)] at h2
        have hc2 : containsKey (mapInsert m q (0, 0)) q = true := by
          rw [containsKey_mapInsert]
          simp
        have hstep := closeKeyAux_preserve k rest (mapInsert m q (0, 0)) m' h2 q hc2
        rw [hstep, mapLookup_mapInsert, if_pos rfl,
          if_pos ⟨n, List.mem_cons_self n rest, hq⟩]
      · have hpq' : ¬(p = q) := fun hh => hpq hh.symm
        have hnext : containsKey (if containsKey m q then m else mapInsert m q (0, 0)) p
            = false := by
          by_cases hcq : containsKey m q = true
          · rw [if_pos hcq]; exact hp
          · rw [if_neg hcq, containsKey_mapInsert]
            simp [hp, hpq']
        have hrec := ih (if containsKey m q then m else mapInsert m q (0, 0)) h2 hnext
        rw [hrec]
        have hiff : (∃ n' ∈ rest, byteSlice k n' = some p) ↔
            (∃ n' ∈ n :: rest, byteSlice k n' = some p) := by
          constructor
          · rintro ⟨n', hn', he⟩
            exact ⟨n', List.mem_cons_of_mem n hn', he⟩
          · rintro ⟨n', hn', he⟩
            rcases List.mem_cons.mp hn' with h1 | h1
            · subst h1
              rw [hq] at he
              exact absurd (Option.some_inj.mp he) hpq
            · exact ⟨n', h1, he⟩
        by_cases hex : ∃ n' ∈ rest, byteSlice k n' = some p
        · rw [if_pos hex, if_pos (hiff.mp hex)]
        · rw [if_neg hex, if_neg (fun hh => hex (hiff.mpr hh))]

theorem closeKeyAux_isSome (k : List Char) (ns : List Nat) (m : EMap) :
    (closeKeyAux k m ns).isSome = true ↔ ∀ n ∈ ns, (byteSlice k n).isSome = true := by
  induction ns generalizing m with
  | nil => simp [closeKeyAux]
  | cons n rest ih =>
    unfold closeKeyAux
    match hq : byteSlice k n with
    | none =>
      simp only [Option.isSome_none]
      constructor
      · intro hh; cases hh
      · intro hh
        have hcontra := hh n (List.mem_cons_self n rest)
        rw [hq] at hcontra
        cases hcontra
    | some q =>
      have hred : ((match (some q : Option (List Char)) with
          | none => none
          | some pfx =>
            closeKeyAux k (if containsKey m pfx then m else mapInsert m pfx (0, 0)) rest).isSome
            = true) ↔
          ((closeKeyAux k (if containsKey m q then m else mapInsert m q (0, 0)) rest).isSome
            = true) := Iff.rfl
      rw [hred, ih]
      constructor
      · intro hh n' hn'
        rcases List.mem_cons.mp hn' with h1 | h1
        · subst h1; rw [hq]; rfl
        · exact hh n' h1
      · intro hh n' hn'
        exact hh n' (List.mem_cons_of_mem n hn')

theorem closeKey_preserve (m m' : EMap) (x : List Char) (h : closeKey m x = some m')
    (p : List Char) (hp : containsKey m p = true) :
    mapLookup m' p = mapLookup m p :=
  closeKeyAux_preserve x (sliceIndices (utf8Len x)) m m' h p hp

theorem closeKey_new (m m' : EMap) (x : List Char) (h : closeKey m x = some m')
    (p : List Char) (hp : containsKey m p = false) :
    mapLookup m' p = if properPrefixOf p x then some (0, 0) else none := by
  have base := closeKeyAux_new x (sliceIndices (utf8Len x)) m m' h p hp
  by_cases hpp : properPrefixOf p x
  · rcases properPrefixOf_byteSlice p x hpp with ⟨hbs, hge, hlt⟩
    rw [base, if_pos ⟨utf8Len p, (mem_sliceIndices (utf8Len p) (utf8Len x)).mpr ⟨hge, hlt⟩, hbs⟩,
      if_pos hpp]
  · rw [base, if_neg hpp, if_neg ?_]
    rintro ⟨n, hn, he⟩
    rcases (mem_sliceIndices n (utf8Len x)).mp hn with ⟨h1, h2⟩
    exact hpp (byteSlice_properPrefixOf x n p he h1 h2)

theorem closeKeys_preserve (ks : List (List Char)) (m m' : EMap)
    (h : closeKeys m ks = some m') (p : List Char) (hp : containsKey m p = true) :
    mapLookup m' p = mapLookup m p := by
  induction ks generalizing m with
  | nil =>
    unfold closeKeys at h
    simp at h
    subst h
    rfl
  | cons x rest ih =>
    unfold closeKeys at h
    match hx : closeKey m x with
    | none => rw [hx] at h; cases h
    | some mx =>
      rw [hx] at h
      have h2 : closeKeys mx rest = some m' := h
      have hval := closeKey_preserve m mx x hx p hp
      have hc2 : containsKey mx p = true := by
        unfold containsKey
        rw [hval]
        exact hp
      rw [ih mx h2 hc2, hval]

theorem closeKeys_new (ks : List (List Char)) (m m' : EMap)
    (h : closeKeys m ks = some m') (p : List Char) (hp : containsKey m p = false) :
    mapLookup m' p = if (∃ x ∈ ks, properPrefixOf p x) then some (0, 0) else none := by
  induction ks generalizing m with
  | nil =>
    unfold closeKeys at h
    simp at h
    subst h
    rw [if_neg (by simp)]
    exact lookup_none_of_not_contains m p hp
  | cons x rest ih =>
    unfold closeKeys at h
    match hx : closeKey m x with
    | none => rw [hx] at h; cases h
    | some mx =>
      rw [hx] at h
      have h2 : closeKeys mx rest = some m' := h
      by_cases hpp : properPrefixOf p x
      · have hval : mapLookup mx p = some (0, 0) := by
          rw [closeKey_new m mx x hx p hp, if_pos hpp]
        have hc2 : containsKey mx p = true := by
          unfold containsKey
          rw [hval]
          rfl
        rw [closeKeys_preserve rest mx m' h2 p hc2, hval,
          if_pos ⟨x, List.mem_cons_self x rest, hpp⟩]
      · have hval : mapLookup mx p = none := by
          rw [closeKey_new m mx x hx p hp, if_neg hpp]
        have hc2 : containsKey mx p = false := by
          unfold containsKey
          rw [hval]
          rfl
        rw [ih mx h2 hc2]
        have hiff : (∃ x' ∈ rest, properPrefixOf p x') ↔
            (∃ x' ∈ x :: rest, properPrefixOf p x') := by
          constructor
          · rintro ⟨x', hx', he⟩
            exact ⟨x', List.mem_cons_of_mem x hx', he⟩
          · rintro ⟨x', hx', he⟩
            rcases List.mem_cons.mp hx' with h1 | h1
            · subst h1; exact absurd he hpp
            · exact ⟨x', h1, he⟩
        by_cases hex : ∃ x' ∈ rest, properPrefixOf p x'
        · rw [if_pos hex, if_pos (hiff.mp hex)]
        · rw [if_neg hex, if_neg (fun hh => hex (hiff.mpr hh))]

theorem closeKeys_isSome (ks : List (List Char)) (m : EMap) :
    (closeKeys m ks).isSome = true ↔ ∀ x ∈ ks, sliceOK x := by
  induction ks generalizing m with
  | nil => simp [closeKeys, sliceOK]
  | cons x rest ih =>
    unfold closeKeys
    match hx : closeKey m x with
    | none =>
      have hnot : ¬sliceOK x := by
        intro hok
        have hs : (closeKeyAux x m (sliceIndices (utf8Len x))).isSome = true :=
          (closeKeyAux_isSome x (sliceIndices (utf8Len x)) m).mpr hok
        unfold closeKey at hx
        rw [hx] at hs
        cases hs
      simp only [Option.isSome_none]
      constructor
      · intro hh; cases hh
      · intro hh
        exact absurd (hh x (List.mem_cons_self x rest)) hnot
    | some mx =>
      have hred : ((match (some mx : Option EMap) with
          | none => none
          | some m2 => closeKeys m2 rest).isSome = true) ↔
          ((closeKeys mx rest).isSome = true) := Iff.rfl
      rw [hred, ih]
      have hok : sliceOK x := by
        intro n hn
        have h1 : (closeKeyAux x m (sliceIndices (utf8Len x))).isSome = true := by
          unfold closeKey at hx
          rw [hx]
          rfl
        exact (closeKeyAux_isSome x (sliceIndices (utf8Len x)) m).mp h1 n hn
      constructor
      · intro hh x' hx'
        rcases List.mem_cons.mp hx' with h1 | h1
        · subst h1; exact hok
        · exact hh x' h1
      · intro hh x' hx'
        exact hh x' (List.mem_cons_of_mem x hx')

/-! ### Phase-2 and whole-builder characterizations -/

theorem lastWith_mem (l : List EntityRecord) (k : List Char) (r : EntityRecord)
    (h : lastWith l k = some r) : r ∈ l ∧ r.1 = '&' :: k := by
  induction l with
  | nil => cases h
  | cons a rest ih =>
    unfold lastWith at h
    match hlast : lastWith rest k with
    | some r2 =>
      rw [hlast] at h
      have : r2 = r := Option.some_inj.mp h
      subst this
      rcases ih hlast with ⟨h1, h2⟩
      exact ⟨List.mem_cons_of_mem a h1, h2⟩
    | none =>
      rw [hlast] at h
      by_cases ha : a.1 = '&' :: k
      · rw [if_pos ha] at h
        have : a = r := Option.some_inj.mp h
        subst this
        exact ⟨List.mem_cons_self a rest, ha⟩
      · rw [if_neg ha] at h
        cases h

theorem lastWith_isSome_of_mem (l : List EntityRecord) (r : EntityRecord) (hr : r ∈ l)
    (k : List Char) (hname : r.1 = '&' :: k) : (lastWith l k).isSome = true := by
  induction l with
  | nil => cases hr
  | cons a rest ih =>
    unfold lastWith
    match hlast : lastWith rest k with
    | some r2 => rfl
    | none =>
      rcases List.mem_cons.mp hr with h1 | h1
      · subst h1
        rw [if_pos hname]
        rfl
      · have := ih h1
        rw [hlast] at this
        cases this

theorem phase2_wf (l : List EntityRecord) (m2 : EMap) (h : phase2_map l = some m2) :
    ∀ r ∈ l, wfRecord r := by
  unfold phase2_map phase1_map at h
  match h1 : insertRecords [] l with
  | none => rw [h1] at h; cases h
  | some m1 => exact insertRecords_wf [] l m1 h1

theorem norm_isSome_of_wf (r : EntityRecord) (h : wfRecord r) :
    (normCodepoints r.2).isSome = true :=
  (normCodepoints_isSome_iff r.2).mpr h.2

theorem phase2_lookup (l : List EntityRecord) (m2 : EMap) (h : phase2_map l = some m2)
    (k : List Char) :
    mapLookup m2 k =
      if k = [] then some (0, 0)
      else
        match lastWith l k with
        | some r => normCodepoints r.2
        | none => none := by
  unfold phase2_map phase1_map at h
  match h1 : insertRecords [] l with
  | none => rw [h1] at h; cases h
  | some m1 =>
    rw [h1] at h
    have h2 : m2 = mapInsert m1 [] (0, 0) := (Option.some_inj.mp h).symm
    rw [h2, mapLookup_mapInsert]
    by_cases hk : k = []
    · rw [if_pos hk, if_pos hk]
    · rw [if_neg hk, if_neg hk, insertRecords_lookup [] l m1 h1 k]
      match hlast : lastWith l k with
      | some r => rfl
      | none => rfl

theorem phase2_contains (l : List EntityRecord) (m2 : EMap) (h : phase2_map l = some m2)
    (k : List Char) :
    containsKey m2 k = true ↔ k = [] ∨ (lastWith l k).isSome = true := by
  unfold containsKey
  rw [phase2_lookup l m2 h k]
  by_cases hk : k = []
  · simp [hk]
  · rw [if_neg hk]
    constructor
    · intro hh
      match hlast : lastWith l k with
      | some r => right; rfl
      | none => rw [hlast] at hh; cases hh
    · rintro (h1 | h1)
      · exact absurd h1 hk
      · match hlast : lastWith l k with
        | some r =>
          have hm := lastWith_mem l k r hlast
          exact norm_isSome_of_wf r (phase2_wf l m2 h r hm.1)
        | none => rw [hlast] at h1; cases h1

theorem mem_snapshot_iff (l : List EntityRecord) (m2 : EMap) (h : phase2_map l = some m2)
    (x : List Char) :
    x ∈ m2.map Prod.fst ↔ x = [] ∨ (lastWith l x).isSome = true := by
  rw [← containsKey_iff_mem_keys, phase2_contains l m2 h x]

theorem strip_eq_of_lastWith (l : List EntityRecord) (x : List Char) (r : EntityRecord)
    (h : lastWith l x = some r) : strip r = x := by
  rcases lastWith_mem l x r h with ⟨_, h2⟩
  unfold strip
  rw [h2]
  rfl

/-- The master characterization of a successfully built map: the root maps
    to the sentinel; a key named by some record maps to the normalized
    codepoints of the last such record; a key that is only a proper prefix
    of some record's stripped name maps to the sentinel; everything else is
    absent. -/
theorem build_map_lookup (l : List EntityRecord) (m : EMap) (h : build_map l = some m)
    (k : List Char) :
    mapLookup m k =
      if k = [] then some (0, 0)
      else
        match lastWith l k with
        | some r => normCodepoints r.2
        | none =>
          if (∃ r ∈ l, properPrefixOf k (strip r)) then some (0, 0) else none := by
  unfold build_map at h
  match h2m : phase2_map l with
  | none => rw [h2m] at h; cases h
  | some m2 =>
    rw [h2m] at h
    have hck : closeKeys m2 (m2.map Prod.fst) = some m := h
    by_cases hc : containsKey m2 k = true
    · rw [closeKeys_preserve (m2.map Prod.fst) m2 m hck k hc, phase2_lookup l m2 h2m k]
      by_cases hk : k = []
      · rw [if_pos hk, if_pos hk]
      · rw [if_neg hk, if_neg hk]
        match hlast : lastWith l k with
        | some r => rfl
        | none =>
          exfalso
          unfold containsKey at hc
          rw [phase2_lookup l m2 h2m k, if_neg hk, hlast] at hc
          cases hc
    · have hcf : containsKey m2 k = false := by
        cases hcb : containsKey m2 k
        · rfl
        · exact absurd hcb hc
      have hk : ¬(k = []) := fun hh =>
        hc ((phase2_contains l m2 h2m k).mpr (Or.inl hh))
      have hlnone : lastWith l k = none := by
        match hlast : lastWith l k with
        | none => rfl
        | some r =>
          exact absurd ((phase2_contains l m2 h2m k).mpr (Or.inr (by rw [hlast]; rfl))) hc
      rw [if_neg hk, hlnone, closeKeys_new (m2.map Prod.fst) m2 m hck k hcf]
      have hiff : (∃ x ∈ m2.map Prod.fst, properPrefixOf k x) ↔
          (∃ r ∈ l, properPrefixOf k (strip r)) := by
        constructor
        · rintro ⟨x, hx, hpp⟩
          rcases (mem_snapshot_iff l m2 h2m x).mp hx with h1 | h1
          · subst h1
            rcases hpp with ⟨_, hp2, _⟩
            exact absurd hp2 (by simp)
          · match hlast : lastWith l x with
            | none => rw [hlast] at h1; cases h1
            | some r =>
              have hm := lastWith_mem l x r hlast
              exact ⟨r, hm.1, (strip_eq_of_lastWith l x r hlast).symm ▸ hpp⟩
        · rintro ⟨r, hr, hpp⟩
          have hwf := phase2_wf l m2 h2m r hr
          have hcons := head_amp_cons r.1 hwf.1
          have hsome : (lastWith l (strip r)).isSome = true :=
            lastWith_isSome_of_mem l r hr (strip r) hcons
          exact ⟨strip r, (mem_snapshot_iff l m2 h2m (strip r)).mpr (Or.inr hsome), hpp⟩
      by_cases hex : ∃ r ∈ l, properPrefixOf k (strip r)
      · rw [if_pos hex, if_pos (hiff.mpr hex)]
      · rw [if_neg hex, if_neg (fun hh => hex (hiff.mp hh))]

/-- The builder succeeds exactly when every record passes the two
    assertions and the closure pass never slices a stripped name at a
    non-boundary byte index. -/
theorem build_map_isSome (l : List EntityRecord) :
    (build_map l).isSome = true ↔
      (∀ r ∈ l, wfRecord r) ∧ (∀ r ∈ l, sliceOK (strip r)) := by
  unfold build_map
  match h2m : phase2_map l with
  | none =>
    simp only [Option.isSome_none]
    constructor
    · intro hh; cases hh
    · rintro ⟨hwf, _⟩
      have h1 : (insertRecords [] l).isSome = true := insertRecords_total [] l hwf
      unfold phase2_map phase1_map at h2m
      match hx : insertRecords [] l with
      | none => rw [hx] at h1; cases h1
      | some m1 => rw [hx] at h2m; cases h2m
  | some m2 =>
    have hredG : ((match (some m2 : Option EMap) with
        | none => none
        | some mm => closeKeys mm (mm.map Prod.fst)).isSome = true) ↔
        ((closeKeys m2 (m2.map Prod.fst)).isSome = true) := Iff.rfl
    rw [hredG, closeKeys_isSome]
    constructor
    · intro hh
      have hwf := phase2_wf l m2 h2m
      refine ⟨hwf, ?_⟩
      intro r hr
      have hcons := head_amp_cons r.1 (hwf r hr).1
      have hsome := lastWith_isSome_of_mem l r hr (strip r) hcons
      exact hh (strip r) ((mem_snapshot_iff l m2 h2m (strip r)).mpr (Or.inr hsome))
    · rintro ⟨hwf, hslice⟩
      intro x hx
      rcases (mem_snapshot_iff l m2 h2m x).mp hx with h1 | h1
      · subst h1
        intro n hn
        rw [mem_sliceIndices] at hn
        have hz : utf8Len [] = 0 := rfl
        rw [hz] at hn
        omega
      · match hlast : lastWith l x with
        | none => rw [hlast] at h1; cases h1
        | some r =>
          have hm := lastWith_mem l x r hlast
          exact (strip_eq_of_lastWith l x r hlast) ▸ hslice r hm.1

/-! ### Concrete inputs used by witnesses and counterexamples -/

/-- Spec scenario 1: the single entity `&amp;` with codepoint 38. -/
def ampInput : List EntityRecord := [(['&', 'a', 'm', 'p'], [38])]

/-- Two records with the same name, different codepoints, in one order. -/
def dupInput : List EntityRecord := [(['&', 'a'], [1]), (['&', 'a'], [2])]

/-- The same two records in the other order. -/
def dupInputSwapped : List EntityRecord := [(['&', 'a'], [2]), (['&', 'a'], [1])]

/-- A record whose name is just the marker character. -/
def markerOnlyInput : List EntityRecord := [(['&'], [38])]

/-- A well-formed record whose name holds a two-byte character. -/
def nonAsciiInput : List EntityRecord := [(['&', 'é'], [233])]

/-- A record missing the leading marker. -/
def noMarkerInput : List EntityRecord := [(['a'], [38])]

/-- A record with an empty codepoint list. -/
def emptyCodepointsInput : List EntityRecord := [(['&', 'a'], [])]

/-- Spec scenario 4: an entity and one of its proper prefixes, both real. -/
def notEqualInput : List EntityRecord :=
  [(['&', 'N', 'o', 't'], [172]), (['&', 'N', 'o', 't', 'E'], [8800])]

/-- Single-codepoint records clobbered by the root sentinel or by a later
    duplicate with different codepoints. -/
def paddingBadInput : List EntityRecord :=
  [(['&'], [5]), (['&', 'a'], [1]), (['&', 'a'], [2, 3])]

/-- Two name-distinct records, in one order. -/
def nodupPermA : List EntityRecord := [(['&', 'a'], [1]), (['&', 'b'], [2])]

/-- The same two name-distinct records, swapped. -/
def nodupPermB : List EntityRecord := [(['&', 'b'], [2]), (['&', 'a'], [1])]

/-- A two-codepoint record and a one-codepoint record. -/
def twoCpInput : List EntityRecord := [(['&', 'a'], [10, 20]), (['&', 'b'], [7])]

/-! ### Remaining helper lemmas -/

theorem sliceOK_of_ascii (k : List Char) (h : ∀ c ∈ k, c.utf8Size = 1) : sliceOK k := by
  intro n hn
  rw [mem_sliceIndices, utf8Len_ascii k h] at hn
  rw [byteSlice_ascii k n h (by omega)]
  rfl

theorem lastWith_eq_some_of_nodup (l : List EntityRecord)
    (hnodup : (l.map Prod.fst).Nodup) (k : List Char) (r : EntityRecord)
    (hr : r ∈ l) (hname : r.1 = '&' :: k) : lastWith l k = some r := by
  induction l with
  | nil => cases hr
  | cons a rest ih =>
    have hcons : ((a :: rest).map Prod.fst) = a.1 :: rest.map Prod.fst := rfl
    rw [hcons, List.nodup_cons] at hnodup
    unfold lastWith
    rcases List.mem_cons.mp hr with h1 | h1
    · subst h1
      match hlast : lastWith rest k with
      | some r2 =>
        exfalso
        have hm := lastWith_mem rest k r2 hlast
        have hmem : r.1 ∈ rest.map Prod.fst := by
          rw [hname, ← hm.2]
          exact List.mem_map_of_mem Prod.fst hm.1
        exact hnodup.1 hmem
      | none => rw [if_pos hname]
    · rw [ih hnodup.2 h1]

/-! ### The claims -/

/-- C1: for every map returned by `build_map` and every record in the input,
    every non-empty proper prefix (character lengths 1 to len-1) of the
    record's stripped name is present as a key in the returned map. -/
theorem C1_prefix_closure (l : List EntityRecord) (m : EMap) (h : build_map l = some m)
    (r : EntityRecord) (hr : r ∈ l) (i : Nat) (h1 : 1 ≤ i) (h2 : i < (strip r).length) :
    containsKey m ((strip r).take i) = true := by
  have hplen : ((strip r).take i).length = i := by
    rw [List.length_take]
    omega
  have hpp : properPrefixOf ((strip r).take i) (strip r) :=
    ⟨by rw [hplen]; exact h1, by rw [hplen]; exact h2, by rw [hplen]⟩
  have hk : ¬((strip r).take i = []) := by
    intro hh
    rw [hh] at hplen
    simp at hplen
    omega
  have hswf := (build_map_isSome l).mp (by rw [h]; rfl)
  unfold containsKey
  rw [build_map_lookup l m h ((strip r).take i), if_neg hk]
  match hlast : lastWith l ((strip r).take i) with
  | some r2 =>
    exact norm_isSome_of_wf r2 (hswf.1 r2 (lastWith_mem l _ r2 hlast).1)
  | none =>
    rw [if_pos ⟨r, hr, hpp⟩]
    rfl

theorem C1_witness : containsKey ((build_map ampInput).getD []) ['a'] = true :=
  C1_prefix_closure ampInput ((build_map ampInput).getD []) rfl
    (['&', 'a', 'm', 'p'], [38]) (by decide) 1 (by decide) (by decide)

/-- C2: the closure pass never overwrites an existing entry: every key
    present in the pre-closure map keeps its exact value in the final map,
    and every key the closure pass adds carries the sentinel `(0, 0)`. -/
theorem C2_closure_frame (l : List EntityRecord) (m2 m : EMap)
    (h2 : phase2_map l = some m2) (h : build_map l = some m) :
    (∀ k, containsKey m2 k = true → mapLookup m k = mapLookup m2 k) ∧
    (∀ k, containsKey m2 k = false → containsKey m k = true →
      mapLookup m k = some (0, 0)) := by
  unfold build_map at h
  rw [h2] at h
  have hck : closeKeys m2 (m2.map Prod.fst) = some m := h
  constructor
  · intro k hk
    exact closeKeys_preserve (m2.map Prod.fst) m2 m hck k hk
  · intro k hk hc
    have hval := closeKeys_new (m2.map Prod.fst) m2 m hck k hk
    by_cases hex : ∃ x ∈ m2.map Prod.fst, properPrefixOf k x
    · rw [hval, if_pos hex]
    · exfalso
      unfold containsKey at hc
      rw [hval, if_neg hex] at hc
      cases hc

theorem C2_witness :
    mapLookup ((build_map notEqualInput).getD []) ['N', 'o', 't'] =
      mapLookup ((phase2_map notEqualInput).getD []) ['N', 'o', 't'] :=
  (C2_closure_frame notEqualInput ((phase2_map notEqualInput).getD [])
    ((build_map notEqualInput).getD []) rfl rfl).1 ['N', 'o', 't'] (by decide)

/-- C3: every map returned by `build_map` contains the empty string with
    exactly the sentinel value `(0, 0)`, whatever the input records. -/
theorem C3_root_sentinel (l : List EntityRecord) (m : EMap)
    (h : build_map l = some m) : mapLookup m [] = some (0, 0) := by
  rw [build_map_lookup l m h [], if_pos rfl]

theorem C3_witness : mapLookup ((build_map markerOnlyInput).getD []) [] = some (0, 0) :=
  C3_root_sentinel markerOnlyInput ((build_map markerOnlyInput).getD []) rfl

/-- C4: when no record's first codepoint is 0 and every record's stripped
    name is non-empty, no key inserted as a full entity name carries the
    sentinel value `(0, 0)` in the returned map. -/
theorem C4_sentinel_exclusive (l : List EntityRecord) (m : EMap)
    (h : build_map l = some m)
    (hz : ∀ r ∈ l, r.2.head? ≠ some 0) (hn : ∀ r ∈ l, strip r ≠ []) :
    ∀ r ∈ l, mapLookup m (strip r) ≠ some (0, 0) := by
  intro r hr
  have hswf := (build_map_isSome l).mp (by rw [h]; rfl)
  have hcons := head_amp_cons r.1 (hswf.1 r hr).1
  have hsome := lastWith_isSome_of_mem l r hr (strip r) hcons
  match hlast : lastWith l (strip r) with
  | none => rw [hlast] at hsome; cases hsome
  | some r2 =>
    have hm := lastWith_mem l (strip r) r2 hlast
    have hz2 := hz r2 hm.1
    have hgoal : mapLookup m (strip r) = normCodepoints r2.2 := by
      rw [build_map_lookup l m h (strip r), if_neg (hn r hr), hlast]
    rw [hgoal]
    match hcps : r2.2 with
    | [] => simp [normCodepoints]
    | [c0] =>
      rw [hcps] at hz2
      intro hcontra
      have hc0 : c0 = 0 := congrArg Prod.fst (Option.some_inj.mp hcontra)
      exact hz2 (by rw [show c0 = 0 from hc0]; rfl)
    | [c0, c1] =>
      rw [hcps] at hz2
      intro hcontra
      have hc0 : c0 = 0 := congrArg Prod.fst (Option.some_inj.mp hcontra)
      exact hz2 (by rw [show c0 = 0 from hc0]; rfl)
    | c0 :: c1 :: c2 :: rest => simp [normCodepoints]

theorem C4_witness : mapLookup ((build_map ampInput).getD [])
    (strip ((['&', 'a', 'm', 'p'], [38]) : EntityRecord)) ≠ some (0, 0) :=
  C4_sentinel_exclusive ampInput ((build_map ampInput).getD []) rfl
    (by decide) (by decide) (['&', 'a', 'm', 'p'], [38]) (by decide)

/-- C5 counterexample: a record with the leading marker and exactly one
    codepoint, whose name contains the two-byte character é, passes
    validation yet makes the closure pass slice inside a character, so the
    build panics and returns no map. -/
theorem C5_counterexample :
    (∀ r ∈ nonAsciiInput, wfRecord r) ∧ build_map nonAsciiInput = none := by decide

/-- C5 amended: for every collection of records each having a leading
    marker, 1 or 2 codepoints, and a name made of single-byte (ASCII)
    characters, `build_map` completes without panicking and returns a map. -/
theorem C5_total_on_ascii (l : List EntityRecord)
    (hwf : ∀ r ∈ l, wfRecord r)
    (hascii : ∀ r ∈ l, ∀ c ∈ r.1, c.utf8Size = 1) :
    (build_map l).isSome = true := by
  rw [build_map_isSome]
  refine ⟨hwf, ?_⟩
  intro r hr
  exact sliceOK_of_ascii (strip r)
    (fun c hc => hascii r hr c (List.drop_subset 1 r.1 hc))

theorem C5_witness : (build_map ampInput).isSome = true :=
  C5_total_on_ascii ampInput (by decide) (by decide)

/-- C6 counterexample: two inputs that are permutations of each other
    (the same duplicate-name records in the two orders) both build, but
    produce different values at the duplicated key. -/
theorem C6_counterexample :
    dupInput.Perm dupInputSwapped ∧
    (build_map dupInput).isSome = true ∧
    (build_map dupInputSwapped).isSome = true ∧
    mapLookup ((build_map dupInput).getD []) ['a'] ≠
      mapLookup ((build_map dupInputSwapped).getD []) ['a'] :=
  ⟨List.Perm.swap _ _ _, by decide, by decide, by decide⟩

/-- C6 amended: when the record names are pairwise distinct, the builder is
    order-independent: permuted inputs succeed together, and when they
    succeed every key carries the same value (the builder is also
    deterministic, so running it twice on one sequence is identical). -/
theorem C6_perm_invariant (l1 l2 : List EntityRecord)
    (hperm : l1.Perm l2) (hnodup : (l1.map Prod.fst).Nodup) :
    ((build_map l1).isSome = (build_map l2).isSome) ∧
    (∀ m1 m2, build_map l1 = some m1 → build_map l2 = some m2 →
      ∀ k, mapLookup m1 k = mapLookup m2 k) := by
  have hiso : (build_map l1).isSome = true ↔ (build_map l2).isSome = true := by
    rw [build_map_isSome, build_map_isSome]
    constructor
    · rintro ⟨hwf, hs⟩
      exact ⟨fun r hr => hwf r (hperm.mem_iff.mpr hr),
        fun r hr => hs r (hperm.mem_iff.mpr hr)⟩
    · rintro ⟨hwf, hs⟩
      exact ⟨fun r hr => hwf r (hperm.mem_iff.mp hr),
        fun r hr => hs r (hperm.mem_iff.mp hr)⟩
  constructor
  · cases hb1 : (build_map l1).isSome <;> cases hb2 : (build_map l2).isSome
    · rfl
    · rw [hb1, hb2] at hiso
      exact absurd (hiso.mpr rfl) (by simp)
    · rw [hb1, hb2] at hiso
      exact absurd (hiso.mp rfl) (by simp)
    · rfl
  · intro m1 m2 hm1 hm2 k
    rw [build_map_lookup l1 m1 hm1 k, build_map_lookup l2 m2 hm2 k]
    by_cases hk : k = []
    · rw [if_pos hk, if_pos hk]
    · rw [if_neg hk, if_neg hk]
      have hnd2 : (l2.map Prod.fst).Nodup := ((hperm.map Prod.fst).nodup_iff).mp hnodup
      by_cases hex : ∃ r ∈ l1, r.1 = '&' :: k
      · rcases hex with ⟨r, hr, hname⟩
        rw [lastWith_eq_some_of_nodup l1 hnodup k r hr hname,
          lastWith_eq_some_of_nodup l2 hnd2 k r (hperm.mem_iff.mp hr) hname]
      · have hn1 : lastWith l1 k = none := by
          match hlast : lastWith l1 k with
          | none => rfl
          | some r =>
            exact absurd ⟨r, (lastWith_mem l1 k r hlast).1, (lastWith_mem l1 k r hlast).2⟩ hex
        have hn2 : lastWith l2 k = none := by
          match hlast : lastWith l2 k with
          | none => rfl
          | some r =>
            exact absurd ⟨r, hperm.mem_iff.mpr (lastWith_mem l2 k r hlast).1,
              (lastWith_mem l2 k r hlast).2⟩ hex
        rw [hn1, hn2]
        have hpiff : (∃ r ∈ l1, properPrefixOf k (strip r)) ↔
            (∃ r ∈ l2, properPrefixOf k (strip r)) := by
          constructor
          · rintro ⟨r, hr, hp⟩
            exact ⟨r, hperm.mem_iff.mp hr, hp⟩
          · rintro ⟨r, hr, hp⟩
            exact ⟨r, hperm.mem_iff.mpr hr, hp⟩
        by_cases hex2 : ∃ r ∈ l1, properPrefixOf k (strip r)
        · rw [if_pos hex2, if_pos (hpiff.mp hex2)]
        · rw [if_neg hex2, if_neg (fun hh => hex2 (hpiff.mpr hh))]

theorem C6_witness :
    mapLookup ((build_map nodupPermA).getD []) ['a'] =
      mapLookup ((build_map nodupPermB).getD []) ['a'] :=
  (C6_perm_invariant nodupPermA nodupPermB (List.Perm.swap _ _ _) (by decide)).2
    ((build_map nodupPermA).getD []) ((build_map nodupPermB).getD []) rfl rfl ['a']

/-- C7: last-write-wins: in a successfully built map, the value at a
    non-empty name equals the normalized codepoint pair of the last input
    record bearing that name, and duplicates do not make the build fail
    (the witness below builds a duplicated input successfully). -/
theorem C7_last_write_wins (l : List EntityRecord) (m : EMap) (k : List Char)
    (r2 : EntityRecord) (h : build_map l = some m) (hk : k ≠ [])
    (hlast : lastWith l k = some r2) :
    mapLookup m k = normCodepoints r2.2 := by
  rw [build_map_lookup l m h k, if_neg hk, hlast]

theorem C7_witness :
    mapLookup ((build_map dupInput).getD []) ['a'] = normCodepoints [2] :=
  C7_last_write_wins dupInput ((build_map dupInput).getD []) ['a']
    (['&', 'a'], [2]) rfl (by decide) rfl

/-- C8: a record whose codepoint count is 0 or greater than 2 makes the
    whole build fail: `build_map` returns no map at all. -/
theorem C8_bad_codepoint_count_fatal (l : List EntityRecord) (r : EntityRecord)
    (hr : r ∈ l) (hbad : r.2.length = 0 ∨ 2 < r.2.length) : build_map l = none := by
  match hb : build_map l with
  | none => rfl
  | some m =>
    exfalso
    have hswf := (build_map_isSome l).mp (by rw [hb]; rfl)
    have hlen := (hswf.1 r hr).2
    omega

theorem C8_witness : build_map emptyCodepointsInput = none :=
  C8_bad_codepoint_count_fatal emptyCodepointsInput (['&', 'a'], [])
    (by decide) (Or.inl rfl)

/-- C9 counterexample: a record whose name is exactly the marker character
    has an empty stripped name, yet the build succeeds instead of failing. -/
theorem C9_counterexample :
    strip ((['&'], [38]) : EntityRecord) = [] ∧ build_map markerOnlyInput ≠ none := by
  decide

/-- C9 amended: a record whose name does not begin with the marker `'&'`
    aborts the build with no map; a name that is exactly the marker
    (empty stripped name) is accepted, and its entry is then overwritten
    by the unconditional root sentinel. -/
theorem C9_missing_marker_fatal (l : List EntityRecord) (r : EntityRecord)
    (hr : r ∈ l) (hm : r.1.head? ≠ some '&') : build_map l = none := by
  match hb : build_map l with
  | none => rfl
  | some m =>
    exfalso
    have hswf := (build_map_isSome l).mp (by rw [hb]; rfl)
    exact hm (hswf.1 r hr).1

theorem C9_witness : build_map noMarkerInput = none :=
  C9_missing_marker_fatal noMarkerInput (['a'], [38]) (by decide) (by decide)

/-- C10 counterexample: the single-codepoint record `("&", [5])` does not
    get `(5, 0)` stored at its stripped name (the root keeps the sentinel),
    and the single-codepoint record `("&a", [1])` is overwritten by the
    later duplicate `("&a", [2, 3])`, so its value is not `(1, 0)` either. -/
theorem C10_counterexample :
    ((['&'], [5]) : EntityRecord) ∈ paddingBadInput ∧
    ((['&', 'a'], [1]) : EntityRecord) ∈ paddingBadInput ∧
    (build_map paddingBadInput).isSome = true ∧
    mapLookup ((build_map paddingBadInput).getD []) [] ≠ some (5, 0) ∧
    mapLookup ((build_map paddingBadInput).getD []) ['a'] ≠ some (1, 0) := by
  decide

/-- C10 amended: for the last input record bearing a given non-empty
    stripped name, a single codepoint `c0` is stored padded as `(c0, 0)`,
    and two codepoints `(c0, c1)` are stored unchanged. -/
theorem C10_padding (l : List EntityRecord) (m : EMap) (k : List Char)
    (r : EntityRecord) (h : build_map l = some m) (hk : k ≠ [])
    (hlast : lastWith l k = some r) :
    (∀ c0, r.2 = [c0] → mapLookup m k = some (c0, 0)) ∧
    (∀ c0 c1, r.2 = [c0, c1] → mapLookup m k = some (c0, c1)) := by
  have hval : mapLookup m k = normCodepoints r.2 := by
    rw [build_map_lookup l m h k, if_neg hk, hlast]
  constructor
  · intro c0 hc
    rw [hval, hc]
    rfl
  · intro c0 c1 hc
    rw [hval, hc]
    rfl

theorem C10_witness :
    mapLookup ((build_map twoCpInput).getD []) ['b'] = some (7, 0) :=
  (C10_padding twoCpInput ((build_map twoCpInput).getD []) ['b']
    (['&', 'b'], [7]) rfl (by decide) rfl).1 7 rfl
